import Mathlib

/-!
Shallow embedding of `crypto/utils/utils.go` (package `utils`): attachment
encryption (AES-256-CTR), key/IV generation, HKDF-SHA256 key derivation,
PBKDF2-SHA512 password derivation, and the base58 recovery-key codec.

Modelling conventions:
* a Go byte is a `Nat` below 256, a `[]byte` is a `List Nat`;
* Go strings are `List Char` (the recovery-key strings involved are ASCII);
* library primitives the Go file calls (btcutil base58, `crypto/aes`,
  `crypto/sha256`, `crypto/sha512`, `crypto/hmac`, `x/crypto/hkdf`,
  `x/crypto/pbkdf2`) are embedded from their published algorithms;
* randomness (`math/rand.Read`) is modelled by passing the byte stream
  explicitly as a function `Nat → Nat`.
-/

namespace GoCrypto

/-- Big-endian interpretation of a byte slice as a natural number
(`math/big.Int.SetBytes`). -/
def beBytesToNat (l : List Nat) : Nat := l.foldl (fun a b => a * 256 + b) 0

/-- Minimal big-endian byte representation of a natural number
(`math/big.Int.Bytes`): no leading zero bytes, empty for zero. -/
def natToBEBytesMin (n : Nat) : List Nat := (Nat.digits 256 n).reverse

/-- Fixed-width big-endian byte representation of a natural number. -/
def natToBEBytes (w n : Nat) : List Nat :=
  (List.range w).map (fun i => n >>> (8 * (w - 1 - i)) % 256)

/-- XOR-fold of a byte list; this is the shape of the `parity ^= b` loops in
both `EncodeBase58RecoveryKey` and `DecodeBase58RecoveryKey`. -/
def xorBytes (l : List Nat) : Nat := l.foldl Nat.xor 0

/-! ### btcutil base58 -/

/-- The btcutil base58 alphabet. -/
def b58Alphabet : List Char :=
  "123456789ABCDEFGHJKLMNPQRSTUVWXYZabcdefghijkmnopqrstuvwxyz".toList

/-- Digit value of one character: btcutil `Decode` uses a 256-entry table
mapping alphabet characters to their index and everything else to the
sentinel 255, modelled here as `none`. -/
def b58DigitVal (c : Char) : Option Nat :=
  if c ∈ b58Alphabet then some (List.indexOf c b58Alphabet) else none

/-- Looks up every character of the input; fails if any is invalid
(btcutil `Decode` returns an empty slice when it meets an invalid
character). -/
def b58DigitVals : List Char → Option (List Nat)
  | [] => some []
  | c :: cs =>
    match b58DigitVal c, b58DigitVals cs with
    | some d, some ds => some (d :: ds)
    | _, _ => none

/-- btcutil `base58.Decode`: the digit values are accumulated most
significant first (`answer = answer*58 + digit` reading left to right,
which is what the right-to-left place-value loop in the Go source
computes), the accumulated number is written out as its minimal big-endian
bytes, and one zero byte is prepended for every leading `'1'` of the
input. An invalid character yields the empty slice. -/
def b58Decode (s : List Char) : List Nat :=
  match b58DigitVals s with
  | none => []
  | some ds =>
    let answer := ds.foldl (fun a d => a * 58 + d) 0
    let tmpval := natToBEBytesMin answer
    let numZeros := (s.takeWhile (· == '1')).length
    List.replicate numZeros 0 ++ tmpval

/-- btcutil `base58.Encode`: the input bytes are read as one big-endian
number whose base-58 digits (produced least significant first in the Go
loop, then reversed) are mapped through the alphabet, preceded by one
`'1'` for every leading zero byte of the input. -/
def b58Encode (b : List Nat) : List Char :=
  List.replicate (b.takeWhile (· == 0)).length '1' ++
    (Nat.digits 58 (beBytesToNat b)).reverse.map (fun d => b58Alphabet.getD d ' ')

/-! ### Recovery-key codec (`EncodeBase58RecoveryKey` / `DecodeBase58RecoveryKey`) -/

/-- First 34 bytes of the pre-encoded buffer `inputBytes` built by
`EncodeBase58RecoveryKey`: tag byte `0x8B`, version byte `1`, then the
first 32 bytes of the key (`copy(inputBytes[2:34], key)` copies at most 32
bytes and leaves the rest of the zero-initialised array untouched). -/
def recoveryBody (key : List Nat) : List Nat :=
  0x8B :: 1 :: (key.take 32 ++ List.replicate (32 - key.length) 0)

/-- The full 35-byte buffer: body followed by the XOR parity of the body
(`inputBytes[34] = parity`). -/
def recoveryPayload (key : List Nat) : List Nat :=
  recoveryBody key ++ [xorBytes (recoveryBody key)]

/-- The space-insertion loop of `EncodeBase58RecoveryKey`: a space is
emitted before character `i` whenever `i > 0 && i%4 == 0`. -/
def spaceEvery4Aux : Nat → List Char → List Char
  | _, [] => []
  | i, c :: cs =>
    (if 0 < i ∧ i % 4 = 0 then [' ', c] else [c]) ++ spaceEvery4Aux (i + 1) cs

def spaceEvery4 (l : List Char) : List Char := spaceEvery4Aux 0 l

def EncodeBase58RecoveryKey (key : List Nat) : List Char :=
  spaceEvery4 (b58Encode (recoveryPayload key))

/-- `strings.ReplaceAll(recoveryKey, " ", "")`. -/
def stripSpaces (s : List Char) : List Char := s.filter (fun c => c != ' ')

/-- `DecodeBase58RecoveryKey`: strip spaces, base58-decode, then insist on
length `32 + 3`, matching XOR parity, tag `0x8B` and version `1`; on
success the secret is `decoded[2:34]`. -/
def DecodeBase58RecoveryKey (s : List Char) : Option (List Nat) :=
  let decoded := b58Decode (stripSpaces s)
  if decoded.length ≠ 32 + 3 then none
  else if xorBytes (decoded.take 34) ≠ decoded.getD 34 0 ∨
      decoded.getD 0 0 ≠ 0x8B ∨ decoded.getD 1 0 ≠ 1 then none
  else some ((decoded.drop 2).take 32)

/-! ### Random key/IV generation

`math/rand.Read` is modelled by an explicit byte stream `r : Nat → Nat`
consumed in order (each produced byte is reduced mod 256). -/

/-- `GenAttachmentA256CTR`: a fresh 32-byte key and a 16-byte IV whose
first 8 bytes are random and whose last 8 bytes (the CTR counter) are left
zero. -/
def GenAttachmentA256CTR (r : Nat → Nat) : List Nat × List Nat :=
  ((List.range 32).map (fun i => r i % 256),
    (List.range 8).map (fun i => r (32 + i) % 256) ++ List.replicate 8 0)

/-- `GenA256CTRIV`: a fully random 16-byte IV with `iv[8] &= 0x7F`. -/
def GenA256CTRIV (r : Nat → Nat) : List Nat :=
  let iv := (List.range 16).map (fun i => r i % 256)
  iv.set 8 (iv.getD 8 0 &&& 0x7F)

/-! ### Arithmetic facts about the base58 codec -/

theorem foldl_mul_add (b : Nat) (l : List Nat) (a : Nat) :
    l.foldl (fun x d => x * b + d) a = a * b ^ l.length + Nat.ofDigits b l.reverse := by
  induction l generalizing a with
  | nil => simp [Nat.ofDigits_nil]
  | cons d l ih =>
    simp only [List.foldl_cons, ih, List.reverse_cons, Nat.ofDigits_append,
      List.length_reverse, List.length_cons, Nat.ofDigits_singleton]
    ring

theorem beBytesToNat_eq (l : List Nat) : beBytesToNat l = Nat.ofDigits 256 l.reverse := by
  simpa using foldl_mul_add 256 l 0

theorem foldl_mul_add_zeros (b z : Nat) (l : List Nat) :
    (List.replicate z 0 ++ l).foldl (fun x d => x * b + d) 0 =
      l.foldl (fun x d => x * b + d) 0 := by
  rw [List.foldl_append]
  congr 1
  induction z with
  | zero => rfl
  | succ z ih => simpa [List.replicate_succ] using ih

theorem b58_val_of_getD : ∀ d, d < 58 → b58DigitVal (b58Alphabet.getD d ' ') = some d := by
  decide

theorem b58_getD_ne_one : ∀ d, d < 58 → d ≠ 0 → b58Alphabet.getD d ' ' ≠ '1' := by
  decide

theorem b58_getD_ne_space : ∀ d, d < 58 → b58Alphabet.getD d ' ' ≠ ' ' := by
  decide

theorem b58_one_val : b58DigitVal '1' = some 0 := by decide

theorem b58DigitVals_replicate_one (z : Nat) (l : List Char) :
    b58DigitVals (List.replicate z '1' ++ l) =
      (b58DigitVals l).map (fun ds => List.replicate z 0 ++ ds) := by
  induction z with
  | zero => cases h : b58DigitVals l <;> simp [h]
  | succ z ih =>
    rw [List.replicate_succ, List.cons_append, b58DigitVals, b58_one_val, ih]
    cases b58DigitVals l <;> simp [List.replicate_succ]

theorem b58DigitVals_map_alph (l : List Nat) (h : ∀ d ∈ l, d < 58) :
    b58DigitVals (l.map (fun d => b58Alphabet.getD d ' ')) = some l := by
  induction l with
  | nil => rfl
  | cons d l ih =>
    rw [List.map_cons, b58DigitVals, b58_val_of_getD d (h d (by simp)),
      ih (fun x hx => h x (by simp [hx]))]

theorem takeWhile_eq_nil_of_head {α : Type} (p : α → Bool) (l : List α)
    (h : ∀ c cs, l = c :: cs → p c = false) : l.takeWhile p = [] := by
  cases l with
  | nil => rfl
  | cons c cs => simp [List.takeWhile_cons, h c cs rfl]

theorem takeWhile_replicate_append {α : Type} (p : α → Bool) (a : α) (z : Nat) (l : List α)
    (ha : p a = true) (h : ∀ c cs, l = c :: cs → p c = false) :
    (List.replicate z a ++ l).takeWhile p = List.replicate z a := by
  induction z with
  | zero => simpa using takeWhile_eq_nil_of_head p l h
  | succ z ih => simp [List.replicate_succ, List.takeWhile_cons, ha, ih]

theorem dropWhile_head_false {α : Type} (p : α → Bool) :
    ∀ (l : List α) (c : α) (cs : List α), l.dropWhile p = c :: cs → p c = false := by
  intro l
  induction l with
  | nil => intro c cs h; cases h
  | cons a as ih =>
    intro c cs h
    cases hpa : p a with
    | true => exact ih c cs (by simpa [List.dropWhile_cons, hpa] using h)
    | false =>
      rw [List.dropWhile_cons, hpa] at h
      simp only [Bool.false_eq_true, if_false, List.cons.injEq] at h
      rw [← h.1]
      exact hpa

/-- Base58 round trip at the byte level: decoding the encoding of any byte
slice (including leading zero bytes) gives the slice back. -/
theorem b58_decode_encode (b : List Nat) (hb : ∀ x ∈ b, x < 256) :
    b58Decode (b58Encode b) = b := by
  set z := (b.takeWhile (· == 0)).length with hz
  have htw : b.takeWhile (· == 0) = List.replicate z 0 := by
    rw [List.eq_replicate_iff]
    exact ⟨rfl, fun x hx => by simpa using List.mem_takeWhile_imp hx⟩
  have hsplit : List.replicate z 0 ++ b.dropWhile (· == 0) = b := by
    rw [← htw, List.takeWhile_append_dropWhile]
  have hnum : beBytesToNat b = beBytesToNat (b.dropWhile (· == 0)) := by
    conv_lhs => rw [← hsplit]
    simpa [beBytesToNat] using foldl_mul_add_zeros 256 z (b.dropWhile (· == 0))
  cases h2 : b.dropWhile (· == 0) with
  | nil =>
    rw [h2] at hsplit hnum
    have hb0 : beBytesToNat b = 0 := by simpa [beBytesToNat] using hnum
    have henc : b58Encode b = List.replicate z '1' := by
      simp [b58Encode, hb0, ← hz]
    rw [henc, b58Decode]
    have hvals : b58DigitVals (List.replicate z '1') = some (List.replicate z 0) := by
      simpa [b58DigitVals] using b58DigitVals_replicate_one z []
    rw [hvals]
    have hfold : (List.replicate z 0).foldl (fun a d => a * 58 + d) 0 = 0 := by
      simpa using foldl_mul_add_zeros 58 z []
    have htake : ((List.replicate z '1').takeWhile (· == '1')) = List.replicate z '1' := by
      have h0 : ∀ (c : Char) (cs : List Char), ([] : List Char) = c :: cs → (c == '1') = false := by
        intro c cs h
        cases h
      have := takeWhile_replicate_append (· == '1') '1' z [] rfl h0
      rwa [List.append_nil] at this
    simp only [hfold, htake, natToBEBytesMin, Nat.digits_zero, List.reverse_nil,
      List.length_replicate, List.append_nil]
    simpa using hsplit
  | cons hd tl =>
    rw [h2] at hsplit hnum
    have hmem : ∀ x ∈ hd :: tl, x < 256 := by
      intro x hx
      exact hb x (by rw [← hsplit]; exact List.mem_append_right _ hx)
    have hhd : hd ≠ 0 := by
      have := dropWhile_head_false (· == 0) b hd tl h2
      simpa using this
    have hdig256 : Nat.digits 256 (beBytesToNat b) = (hd :: tl).reverse := by
      rw [hnum, beBytesToNat_eq]
      refine Nat.digits_ofDigits 256 (by norm_num) _ ?_ ?_
      · intro x hx
        exact hmem x (List.mem_reverse.mp hx)
      · intro h
        have h1 : (hd :: tl).reverse.getLast? = some hd := by
          rw [List.reverse_cons]
          exact List.getLast?_concat _
        have h3 : (hd :: tl).reverse.getLast? = some ((hd :: tl).reverse.getLast h) :=
          List.getLast?_eq_getLast _ h
        rw [h1] at h3
        simpa [← Option.some_inj.mp h3] using hhd
    have hn0 : beBytesToNat b ≠ 0 := by
      intro h0
      rw [h0] at hdig256
      simpa using hdig256.symm
    set D := Nat.digits 58 (beBytesToNat b) with hD
    have hD58 : ∀ d ∈ D.reverse, d < 58 := by
      intro d hd58
      exact Nat.digits_lt_base (by norm_num) (List.mem_reverse.mp hd58)
    have hDne : D ≠ [] := Nat.digits_ne_nil_iff_ne_zero.mpr hn0
    have hDlast : D.getLast hDne ≠ 0 := Nat.getLast_digit_ne_zero 58 hn0
    have hDrev : D.reverse.head? = some (D.getLast hDne) := by
      rw [List.head?_reverse]
      exact List.getLast?_eq_getLast _ _
    obtain ⟨d0, drest, hd0⟩ : ∃ d0 drest, D.reverse = d0 :: drest := by
      cases hDr : D.reverse with
      | nil => rw [hDr] at hDrev; cases hDrev
      | cons x xs => exact ⟨x, xs, rfl⟩
    have hd0val : d0 = D.getLast hDne := by
      rw [hd0] at hDrev
      simpa using hDrev
    have henc : b58Encode b =
        List.replicate z '1' ++ D.reverse.map (fun d => b58Alphabet.getD d ' ') := by
      simp [b58Encode, ← hz, ← hD]
    rw [henc, b58Decode]
    have hvals : b58DigitVals
        (List.replicate z '1' ++ D.reverse.map (fun d => b58Alphabet.getD d ' ')) =
        some (List.replicate z 0 ++ D.reverse) := by
      rw [b58DigitVals_replicate_one, b58DigitVals_map_alph _ hD58]
      rfl
    rw [hvals]
    have hfold : (List.replicate z 0 ++ D.reverse).foldl (fun a d => a * 58 + d) 0 =
        beBytesToNat b := by
      rw [foldl_mul_add_zeros, foldl_mul_add, List.reverse_reverse, hD, Nat.ofDigits_digits]
      ring
    have htake : ((List.replicate z '1' ++
        D.reverse.map (fun d => b58Alphabet.getD d ' ')).takeWhile (· == '1')) =
        List.replicate z '1' := by
      refine takeWhile_replicate_append _ _ _ _ rfl ?_
      intro c cs hcc
      rw [hd0, List.map_cons] at hcc
      have hc : c = b58Alphabet.getD d0 ' ' := by
        injection hcc with h1 _
        exact h1.symm
      have : b58Alphabet.getD d0 ' ' ≠ '1' := by
        refine b58_getD_ne_one d0 (hD58 d0 (by rw [hd0]; simp)) ?_
        rw [hd0val]; exact hDlast
      simpa [hc] using this
    simp only [hfold, htake, natToBEBytesMin, hdig256, List.reverse_reverse,
      List.length_replicate]
    exact hsplit

/-! ### XOR-parity facts -/

theorem foldl_xor_eq (l : List Nat) (a : Nat) : l.foldl Nat.xor a = a ^^^ xorBytes l := by
  induction l generalizing a with
  | nil => simp [xorBytes]
  | cons x xs ih =>
    have h1 : (x :: xs).foldl Nat.xor a = xs.foldl Nat.xor (a ^^^ x) := rfl
    have h2 : xorBytes (x :: xs) = xs.foldl Nat.xor x := by
      have h0 : Nat.xor 0 x = x := Nat.zero_xor x
      simp [xorBytes, List.foldl_cons, h0]
    rw [h1, h2, ih (a ^^^ x), ih x]
    exact Nat.xor_assoc a x (xorBytes xs)

theorem xorBytes_cons (x : Nat) (l : List Nat) : xorBytes (x :: l) = x ^^^ xorBytes l := by
  have : xorBytes (x :: l) = l.foldl Nat.xor (0 ^^^ x) := rfl
  rw [this, foldl_xor_eq, Nat.zero_xor]

theorem xorBytes_append (l1 l2 : List Nat) :
    xorBytes (l1 ++ l2) = xorBytes l1 ^^^ xorBytes l2 := by
  show (l1 ++ l2).foldl Nat.xor 0 = _
  rw [List.foldl_append, foldl_xor_eq]
  rfl

theorem foldl_xor_lt (l : List Nat) (h : ∀ x ∈ l, x < 256) :
    ∀ a, a < 256 → l.foldl Nat.xor a < 256 := by
  induction l with
  | nil => intro a ha; simpa using ha
  | cons x xs ih =>
    intro a ha
    refine ih (fun y hy => h y (by simp [hy])) _ ?_
    have hx : x < 256 := h x (by simp)
    have h8 : a ^^^ x < 2 ^ 8 := Nat.xor_lt_two_pow (by simpa using ha) (by simpa using hx)
    simpa using h8

theorem xorBytes_lt (l : List Nat) (h : ∀ x ∈ l, x < 256) : xorBytes l < 256 :=
  foldl_xor_lt l h 0 (by norm_num)

theorem xorBytes_set (l : List Nat) (i v : Nat) (hi : i < l.length) :
    xorBytes (l.set i v) = xorBytes l ^^^ l.getD i 0 ^^^ v := by
  induction l generalizing i with
  | nil => simp at hi
  | cons x xs ih =>
    cases i with
    | zero =>
      simp only [List.set_cons_zero, List.getD_cons_zero, xorBytes_cons]
      rw [Nat.xor_comm x (xorBytes xs), Nat.xor_cancel_right, Nat.xor_comm]
    | succ i =>
      have hi2 : i < xs.length := by simpa using hi
      simp only [List.set_cons_succ, List.getD_cons_succ, xorBytes_cons, ih i hi2]
      rw [← Nat.xor_assoc, ← Nat.xor_assoc]

/-! ### Structure of the 35-byte recovery payload -/

theorem recoveryBody_length (key : List Nat) : (recoveryBody key).length = 34 := by
  simp only [recoveryBody, List.length_cons, List.length_append, List.length_take,
    List.length_replicate]
  omega

theorem recoveryPayload_length (key : List Nat) : (recoveryPayload key).length = 35 := by
  simp [recoveryPayload, recoveryBody_length]

theorem recoveryPayload_take (key : List Nat) :
    (recoveryPayload key).take 34 = recoveryBody key :=
  List.take_left' (recoveryBody_length key)

theorem recoveryPayload_getD_34 (key : List Nat) :
    (recoveryPayload key).getD 34 0 = xorBytes (recoveryBody key) := by
  rw [recoveryPayload, List.getD_eq_getElem?_getD,
    List.getElem?_append_right (by rw [recoveryBody_length])]
  simp [recoveryBody_length]

theorem recoveryBody_bounds (key : List Nat) (h : ∀ x ∈ key, x < 256) :
    ∀ x ∈ recoveryBody key, x < 256 := by
  intro x hx
  simp only [recoveryBody, List.mem_cons, List.mem_append, List.mem_replicate] at hx
  rcases hx with rfl | rfl | hx | hx
  · norm_num
  · norm_num
  · exact h x ((List.take_sublist 32 key).subset hx)
  · rw [hx.2]; norm_num

theorem recoveryPayload_bounds (key : List Nat) (h : ∀ x ∈ key, x < 256) :
    ∀ x ∈ recoveryPayload key, x < 256 := by
  intro x hx
  rcases List.mem_append.mp hx with hx | hx
  · exact recoveryBody_bounds key h x hx
  · have : x = xorBytes (recoveryBody key) := by simpa using hx
    rw [this]
    exact xorBytes_lt _ (recoveryBody_bounds key h)

theorem recoveryPayload_xor_zero (key : List Nat) : xorBytes (recoveryPayload key) = 0 := by
  rw [recoveryPayload, xorBytes_append, xorBytes_cons]
  simp [xorBytes, Nat.xor_self]

theorem recoveryPayload_slice (key : List Nat) (hlen : key.length = 32) :
    ((recoveryPayload key).drop 2).take 32 = key := by
  have hmid : key.take 32 ++ List.replicate (32 - key.length) 0 = key := by
    rw [hlen, Nat.sub_self, List.replicate_zero, List.append_nil, ← hlen, List.take_length]
  simp only [recoveryPayload, recoveryBody, List.cons_append, List.drop_succ_cons,
    List.drop_zero, hmid]
  exact List.take_left' hlen

/-! ### Space insertion and stripping -/

theorem stripSpaces_spaceEvery4Aux (l : List Char) (h : ∀ c ∈ l, c ≠ ' ') :
    ∀ i, stripSpaces (spaceEvery4Aux i l) = l := by
  induction l with
  | nil => intro _; rfl
  | cons c cs ih =>
    intro i
    have hc : (c != ' ') = true := by
      simpa [bne_iff_ne] using h c (by simp)
    have ihcs := ih (fun x hx => h x (by simp [hx])) (i + 1)
    by_cases hcond : 0 < i ∧ i % 4 = 0 <;>
      simp [spaceEvery4Aux, hcond, stripSpaces, List.filter_append, List.filter, hc] <;>
      simpa [stripSpaces] using ihcs

theorem b58Encode_no_space (b : List Nat) : ∀ c ∈ b58Encode b, c ≠ ' ' := by
  intro c hc
  simp only [b58Encode, List.mem_append, List.mem_replicate, List.mem_map] at hc
  rcases hc with hc | ⟨d, hd, rfl⟩
  · rw [hc.2]; decide
  · exact b58_getD_ne_space d (Nat.digits_lt_base (by norm_num) (List.mem_reverse.mp hd))

/-! ### Grouping in blocks of four (spec-side description of the spacing) -/

/-- Cuts a character list into consecutive chunks of four (the last chunk
may be shorter). -/
def chunks4 : List Char → List (List Char)
  | [] => []
  | a :: rest => ((a :: rest).take 4) :: chunks4 ((a :: rest).drop 4)
termination_by l => l.length
decreasing_by simp [List.length_drop]; omega

/-- Modelled from the spec: groups joined by single spaces (characters 0 to 3,
then a space, then four more, and so on). -/
def spacedGroups : List (List Char) → List Char
  | [] => []
  | [g] => g
  | g :: gs => g ++ ' ' :: spacedGroups gs

theorem spaceAux_congr : ∀ (l : List Char) (i j : Nat), 0 < i → 0 < j → i % 4 = j % 4 →
    spaceEvery4Aux i l = spaceEvery4Aux j l := by
  intro l
  induction l with
  | nil => intro i j _ _ _; rfl
  | cons c cs ih =>
    intro i j hi hj hmod
    simp only [spaceEvery4Aux]
    have hiff : (0 < i ∧ i % 4 = 0) ↔ (0 < j ∧ j % 4 = 0) := by omega
    rw [if_congr hiff rfl rfl, ih (i + 1) (j + 1) (by omega) (by omega) (by omega)]

theorem spaceAux_four (c : Char) (cs : List Char) (i : Nat) (hi : 0 < i) (hm : i % 4 = 0) :
    spaceEvery4Aux i (c :: cs) = ' ' :: spaceEvery4Aux 0 (c :: cs) := by
  simp only [spaceEvery4Aux, if_pos (And.intro hi hm),
    if_neg (by omega : ¬(0 < 0 ∧ 0 % 4 = 0))]
  rw [spaceAux_congr cs (i + 1) 1 (by omega) (by omega) (by omega)]
  rfl

theorem spaceAux_cons4 (a b c d : Char) (t : List Char) :
    spaceEvery4Aux 0 (a :: b :: c :: d :: t) =
      a :: b :: c :: d :: spaceEvery4Aux 4 t := by
  norm_num [spaceEvery4Aux]

theorem spaceEvery4_eq_groups : ∀ (n : Nat) (l : List Char), l.length ≤ n →
    spaceEvery4 l = spacedGroups (chunks4 l) := by
  intro n
  induction n with
  | zero =>
    intro l hl
    have : l = [] := List.length_eq_zero.mp (Nat.le_zero.mp hl)
    rw [this]
    simp [spaceEvery4, spaceEvery4Aux, chunks4, spacedGroups]
  | succ n ih =>
    intro l hl
    match l with
    | [] => simp [spaceEvery4, spaceEvery4Aux, chunks4, spacedGroups]
    | [a] => simp [spaceEvery4, spaceEvery4Aux, chunks4, spacedGroups]
    | [a, b] => simp [spaceEvery4, spaceEvery4Aux, chunks4, spacedGroups]
    | [a, b, c] => simp [spaceEvery4, spaceEvery4Aux, chunks4, spacedGroups]
    | a :: b :: c :: d :: t =>
      have hch : chunks4 (a :: b :: c :: d :: t) = [a, b, c, d] :: chunks4 t := by
        simp [chunks4]
      rw [spaceEvery4, spaceAux_cons4, hch]
      match t with
      | [] => simp [spaceEvery4Aux, chunks4, spacedGroups]
      | r :: rs =>
        have hlen : (r :: rs).length ≤ n := by
          simp only [List.length_cons] at hl ⊢
          omega
        have hrec := ih (r :: rs) hlen
        rw [spaceAux_four r rs 4 (by omega) (by omega)]
        have hch2 : chunks4 (r :: rs) =
            ((r :: rs).take 4) :: chunks4 ((r :: rs).drop 4) := by
          simp only [chunks4]
        rw [hch2, show spacedGroups ([a, b, c, d] :: (r :: rs).take 4 ::
            chunks4 ((r :: rs).drop 4)) =
          [a, b, c, d] ++ ' ' :: spacedGroups ((r :: rs).take 4 ::
            chunks4 ((r :: rs).drop 4)) from rfl, ← hch2, ← hrec]
        rfl

/-! ### Claim theorems: recovery-key codec -/

/-- Shared helper: the full encode/decode round trip for a 32-byte secret. -/
theorem decode_encode_key (key : List Nat) (hlen : key.length = 32)
    (hb : ∀ x ∈ key, x < 256) :
    DecodeBase58RecoveryKey (EncodeBase58RecoveryKey key) = some key := by
  have hpb := recoveryPayload_bounds key hb
  have hstrip : stripSpaces (EncodeBase58RecoveryKey key) =
      b58Encode (recoveryPayload key) := by
    rw [EncodeBase58RecoveryKey, spaceEvery4]
    exact stripSpaces_spaceEvery4Aux _ (b58Encode_no_space _) 0
  simp only [DecodeBase58RecoveryKey, hstrip, b58_decode_encode _ hpb]
  rw [if_neg (by rw [recoveryPayload_length]; omega)]
  rw [if_neg ?hcond]
  case hcond =>
    push_neg
    refine ⟨?_, rfl, rfl⟩
    rw [recoveryPayload_take, recoveryPayload_getD_34]
  rw [recoveryPayload_slice key hlen]

/-- C1: for every 32-byte secret `s`, decoding the encoded recovery key
returns `s`: `DecodeBase58RecoveryKey (EncodeBase58RecoveryKey s) = some s`. -/
theorem recovery_key_roundtrip (s : List Nat) (hlen : s.length = 32)
    (hb : ∀ x ∈ s, x < 256) :
    DecodeBase58RecoveryKey (EncodeBase58RecoveryKey s) = some s :=
  decode_encode_key s hlen hb

/-- Witness for the C1 theorem at the all-zero 32-byte secret. -/
theorem recovery_key_roundtrip_witness :
    (List.replicate 32 0).length = 32 ∧ (∀ x ∈ List.replicate 32 0, x < 256) ∧
      DecodeBase58RecoveryKey (EncodeBase58RecoveryKey (List.replicate 32 0)) =
        some (List.replicate 32 0) :=
  ⟨by decide, by decide, recovery_key_roundtrip _ (by decide) (by decide)⟩

/-- C2: `DecodeBase58RecoveryKey` returns a secret exactly when the
space-stripped, base58-decoded buffer is 35 bytes long, the XOR of its
first 34 bytes equals byte 34, byte 0 is `0x8B` and byte 1 is `0x01`; the
result is then bytes 2..33. In every other case it returns `none` (the
function is total, so no input can crash it). -/
theorem decode_validation_characterization (s : List Char) (r : List Nat) :
    DecodeBase58RecoveryKey s = some r ↔
      ((b58Decode (stripSpaces s)).length = 35 ∧
        xorBytes ((b58Decode (stripSpaces s)).take 34) =
          (b58Decode (stripSpaces s)).getD 34 0 ∧
        (b58Decode (stripSpaces s)).getD 0 0 = 0x8B ∧
        (b58Decode (stripSpaces s)).getD 1 0 = 1 ∧
        r = ((b58Decode (stripSpaces s)).drop 2).take 32) := by
  simp only [DecodeBase58RecoveryKey]
  split_ifs with h1 h2
  · constructor
    · intro h; exact absurd h (by simp)
    · rintro ⟨hl, -⟩; omega
  · constructor
    · intro h; exact absurd h (by simp)
    · rintro ⟨-, hp, ht, hv, -⟩
      rcases h2 with h | h | h
      · exact h hp
      · exact h ht
      · exact h hv
  · push_neg at h1 h2
    constructor
    · intro h
      exact ⟨by omega, h2.1, h2.2.1, h2.2.2, (Option.some_inj.mp h).symm⟩
    · rintro ⟨-, -, -, -, rfl⟩
      rfl

/-- C4: the 35-byte buffer that `EncodeBase58RecoveryKey` base58-encodes
has byte 0 `0x8B`, byte 1 `0x01`, bytes 2..33 equal to the secret, and
byte 34 equal to the XOR of bytes 0..33; for the all-zero secret the
buffer starts with `0x8B, 0x01` and the decode of the encoding returns
the all-zero secret. -/
theorem encode_payload_structure (s : List Nat) (hlen : s.length = 32)
    (hb : ∀ x ∈ s, x < 256) :
    (recoveryPayload s).getD 0 0 = 0x8B ∧ (recoveryPayload s).getD 1 0 = 1 ∧
      ((recoveryPayload s).drop 2).take 32 = s ∧
      (recoveryPayload s).getD 34 0 = xorBytes ((recoveryPayload s).take 34) ∧
      (recoveryPayload (List.replicate 32 0)).getD 0 0 = 0x8B ∧
      (recoveryPayload (List.replicate 32 0)).getD 1 0 = 1 ∧
      DecodeBase58RecoveryKey (EncodeBase58RecoveryKey (List.replicate 32 0)) =
        some (List.replicate 32 0) := by
  refine ⟨rfl, rfl, recoveryPayload_slice s hlen, ?_, rfl, rfl,
    decode_encode_key _ (by decide) (by decide)⟩
  rw [recoveryPayload_getD_34, recoveryPayload_take]

/-- Witness for the C4 theorem at a concrete non-zero 32-byte secret. -/
theorem encode_payload_structure_witness :
    (List.replicate 32 7).length = 32 ∧ (∀ x ∈ List.replicate 32 7, x < 256) ∧
      ((recoveryPayload (List.replicate 32 7)).drop 2).take 32 = List.replicate 32 7 :=
  ⟨by decide, by decide, (encode_payload_structure _ (by decide) (by decide)).2.2.1⟩

/-- C5: corrupting exactly one byte of a valid 35-byte recovery payload is
always caught: the XOR parity check fails, so decoding the base58 encoding
of the corrupted buffer yields `none`. -/
theorem single_byte_corruption_detected (s : List Nat) (i v : Nat) (hlen32 : s.length = 32)
    (hb : ∀ x ∈ s, x < 256) (hi : i < 35) (hv : v < 256)
    (hne : v ≠ (recoveryPayload s).getD i 0) :
    DecodeBase58RecoveryKey (b58Encode ((recoveryPayload s).set i v)) = none := by
  set q := (recoveryPayload s).set i v with hq
  have hqlen : q.length = 35 := by rw [hq, List.length_set, recoveryPayload_length]
  have hqb : ∀ x ∈ q, x < 256 := by
    intro x hx
    rcases List.mem_or_eq_of_mem_set (hq ▸ hx) with h | h
    · exact recoveryPayload_bounds s hb x h
    · rw [h]; exact hv
  have hstrip : stripSpaces (b58Encode q) = b58Encode q := by
    rw [stripSpaces, List.filter_eq_self]
    intro c hc
    simpa [bne_iff_ne] using b58Encode_no_space q c hc
  have hqxor : xorBytes q ≠ 0 := by
    rw [hq, xorBytes_set _ _ _ (by rw [recoveryPayload_length]; omega),
      recoveryPayload_xor_zero, Nat.zero_xor]
    intro h
    exact hne (Nat.xor_eq_zero.mp h).symm
  have hdrop : q.drop 34 = [q.getD 34 0] := by
    have h1 : (q.drop 34).length = 1 := by rw [List.length_drop, hqlen]
    cases hd : q.drop 34 with
    | nil => rw [hd] at h1; cases h1
    | cons a t =>
      rw [hd] at h1
      simp only [List.length_cons, Nat.add_left_eq_self] at h1
      have ht : t = [] := List.length_eq_zero.mp h1
      subst ht
      have hget : q[34]? = some a := by
        have := List.getElem?_drop q 34 0
        rw [hd] at this
        simpa using this.symm
      simp [List.getD_eq_getElem?_getD, hget]
  have hparity : xorBytes (q.take 34) ≠ q.getD 34 0 := by
    intro hp
    apply hqxor
    calc xorBytes q = xorBytes (q.take 34 ++ q.drop 34) := by rw [List.take_append_drop]
    _ = xorBytes (q.take 34) ^^^ xorBytes (q.drop 34) := xorBytes_append _ _
    _ = q.getD 34 0 ^^^ q.getD 34 0 := by
        rw [hp, hdrop, xorBytes_cons]
        simp [xorBytes]
    _ = 0 := Nat.xor_self _
  simp only [DecodeBase58RecoveryKey, hstrip, b58_decode_encode q hqb]
  rw [if_neg (by omega), if_pos (Or.inl hparity)]

/-- Witness for the C5 theorem: flip payload byte 2 of the all-zero secret
from 0 to 1. -/
theorem single_byte_corruption_detected_witness :
    (List.replicate 32 0).length = 32 ∧ (∀ x ∈ List.replicate 32 0, x < 256) ∧
      (2 : Nat) < 35 ∧ (1 : Nat) < 256 ∧
      (1 : Nat) ≠ (recoveryPayload (List.replicate 32 0)).getD 2 0 ∧
      DecodeBase58RecoveryKey
        (b58Encode ((recoveryPayload (List.replicate 32 0)).set 2 1)) = none :=
  ⟨by decide, by decide, by decide, by decide, by decide,
    single_byte_corruption_detected _ 2 1 (by decide) (by decide) (by decide) (by decide)
      (by decide)⟩

/-- C7: the encoded recovery key is the base58 string of the payload cut
into groups of four characters joined by single spaces, and removing all
spaces recovers exactly that base58 string. -/
theorem encode_spacing (s : List Nat) (hlen32 : s.length = 32) (hbytes : ∀ x ∈ s, x < 256) :
    EncodeBase58RecoveryKey s =
        spacedGroups (chunks4 (b58Encode (recoveryPayload s))) ∧
      stripSpaces (EncodeBase58RecoveryKey s) = b58Encode (recoveryPayload s) := by
  constructor
  · rw [EncodeBase58RecoveryKey]
    exact spaceEvery4_eq_groups (b58Encode (recoveryPayload s)).length _ le_rfl
  · rw [EncodeBase58RecoveryKey, spaceEvery4]
    exact stripSpaces_spaceEvery4Aux _ (b58Encode_no_space _) 0

/-- Witness for the C7 theorem at a concrete 32-byte secret. -/
theorem encode_spacing_witness :
    (List.replicate 32 170).length = 32 ∧ (∀ x ∈ List.replicate 32 170, x < 256) ∧
      stripSpaces (EncodeBase58RecoveryKey (List.replicate 32 170)) =
        b58Encode (recoveryPayload (List.replicate 32 170)) :=
  ⟨by decide, by decide, (encode_spacing _ (by decide) (by decide)).2⟩

/-- C10: `EncodeBase58RecoveryKey` is total on byte slices of any length:
a short input is padded with zeros to 32 bytes, a long input is truncated
to its first 32 bytes, and the payload is always 35 bytes. -/
theorem encode_total_any_length (key : List Nat) :
    EncodeBase58RecoveryKey key =
        EncodeBase58RecoveryKey (key.take 32 ++ List.replicate (32 - key.length) 0) ∧
      (recoveryPayload key).length = 35 ∧
      ((recoveryPayload key).drop 2).take 32 =
        key.take 32 ++ List.replicate (32 - key.length) 0 := by
  have hXlen : (key.take 32 ++ List.replicate (32 - key.length) 0).length = 32 := by
    simp only [List.length_append, List.length_take, List.length_replicate]
    omega
  have hbody : recoveryBody (key.take 32 ++ List.replicate (32 - key.length) 0) =
      recoveryBody key := by
    have hmid2 : (key.take 32 ++ List.replicate (32 - key.length) 0).take 32 ++
        List.replicate (32 - (key.take 32 ++ List.replicate (32 - key.length) 0).length) 0 =
        key.take 32 ++ List.replicate (32 - key.length) 0 := by
      rw [hXlen, Nat.sub_self, List.replicate_zero, List.append_nil]
      exact List.take_of_length_le (le_of_eq hXlen)
    rw [recoveryBody, recoveryBody, hmid2]
  refine ⟨?_, recoveryPayload_length key, ?_⟩
  · rw [EncodeBase58RecoveryKey, EncodeBase58RecoveryKey, recoveryPayload,
      recoveryPayload, hbody]
  · simp only [recoveryPayload, recoveryBody, List.cons_append, List.drop_succ_cons,
      List.drop_zero]
    exact List.take_left' (by simp only [List.length_append, List.length_take,
      List.length_replicate]; omega)

/-! ### Claim theorem: IV counter layout -/

/-- C8: for every random stream, `GenAttachmentA256CTR` yields a 16-byte IV
whose bytes 8..15 are all zero (only the first 8 bytes are randomized),
and `GenA256CTRIV` yields a 16-byte IV whose byte 8 has its high bit (bit
7) cleared. -/
theorem iv_counter_layout (r : Nat → Nat) :
    (GenAttachmentA256CTR r).1.length = 32 ∧
      (GenAttachmentA256CTR r).2.length = 16 ∧
      (GenAttachmentA256CTR r).2.drop 8 = List.replicate 8 0 ∧
      (GenA256CTRIV r).length = 16 ∧
      Nat.testBit ((GenA256CTRIV r).getD 8 0) 7 = false := by
  refine ⟨by simp [GenAttachmentA256CTR], by simp [GenAttachmentA256CTR], ?_, ?_, ?_⟩
  · show (((List.range 8).map (fun i => r (32 + i) % 256)) ++ List.replicate 8 0).drop 8 =
      List.replicate 8 0
    exact List.drop_left' (by simp)
  · simp [GenA256CTRIV]
  · simp only [GenA256CTRIV]
    have hlen : ((List.range 16).map (fun i => r i % 256)).length = 16 := by simp
    rw [List.getD_eq_getElem?_getD, List.getElem?_set_self (by rw [hlen]; omega),
      Option.getD_some, Nat.testBit_and]
    have h127 : Nat.testBit 127 7 = false := Nat.testBit_eq_false_of_lt (by norm_num)
    rw [h127, Bool.and_false]

/-! ### AES-256-CTR (`XorA256CTR`)

`crypto/aes` and `crypto/cipher.NewCTR` embedded from FIPS-197 and the
standard big-endian-increment CTR construction the Go stdlib implements
(the Go code uses the equivalent word/table formulation). -/

/-- The AES S-box. -/
def aesSbox : List Nat := [
  99, 124, 119, 123, 242, 107, 111, 197,
  48, 1, 103, 43, 254, 215, 171, 118,
  202, 130, 201, 125, 250, 89, 71, 240,
  173, 212, 162, 175, 156, 164, 114, 192,
  183, 253, 147, 38, 54, 63, 247, 204,
  52, 165, 229, 241, 113, 216, 49, 21,
  4, 199, 35, 195, 24, 150, 5, 154,
  7, 18, 128, 226, 235, 39, 178, 117,
  9, 131, 44, 26, 27, 110, 90, 160,
  82, 59, 214, 179, 41, 227, 47, 132,
  83, 209, 0, 237, 32, 252, 177, 91,
  106, 203, 190, 57, 74, 76, 88, 207,
  208, 239, 170, 251, 67, 77, 51, 133,
  69, 249, 2, 127, 80, 60, 159, 168,
  81, 163, 64, 143, 146, 157, 56, 245,
  188, 182, 218, 33, 16, 255, 243, 210,
  205, 12, 19, 236, 95, 151, 68, 23,
  196, 167, 126, 61, 100, 93, 25, 115,
  96, 129, 79, 220, 34, 42, 144, 136,
  70, 238, 184, 20, 222, 94, 11, 219,
  224, 50, 58, 10, 73, 6, 36, 92,
  194, 211, 172, 98, 145, 149, 228, 121,
  231, 200, 55, 109, 141, 213, 78, 169,
  108, 86, 244, 234, 101, 122, 174, 8,
  186, 120, 37, 46, 28, 166, 180, 198,
  232, 221, 116, 31, 75, 189, 139, 138,
  112, 62, 181, 102, 72, 3, 246, 14,
  97, 53, 87, 185, 134, 193, 29, 158,
  225, 248, 152, 17, 105, 217, 142, 148,
  155, 30, 135, 233, 206, 85, 40, 223,
  140, 161, 137, 13, 191, 230, 66, 104,
  65, 153, 45, 15, 176, 84, 187, 22
]

def sboxAt (b : Nat) : Nat := aesSbox.getD b 0

/-- Rotate a 32-bit word left by 8 (Go `rotw`). -/
def rotw (w : Nat) : Nat := ((w <<< 8) &&& 0xFFFFFFFF) ||| (w >>> 24)

/-- Apply the S-box to each byte of a 32-bit word (Go `subw`). -/
def subw (w : Nat) : Nat :=
  (sboxAt ((w >>> 24) &&& 0xFF)) <<< 24 ||| (sboxAt ((w >>> 16) &&& 0xFF)) <<< 16 |||
    (sboxAt ((w >>> 8) &&& 0xFF)) <<< 8 ||| sboxAt (w &&& 0xFF)

/-- Powers of x in GF(2^8) (Go `powx`), used for the round constants. -/
def powx : List Nat :=
  [0x01, 0x02, 0x04, 0x08, 0x10, 0x20, 0x40, 0x80, 0x1b, 0x36, 0x6c, 0xd8, 0xab, 0x4d, 0x9a, 0x2f]

/-- AES-256 key expansion (Go `expandKeyGeneric` with `nk = 8`): 60 32-bit
round-key words. -/
def expandKeyWords (key : List Nat) : List Nat :=
  (List.range 52).foldl
    (fun ws j =>
      let i := j + 8
      let prev := ws.getD (i - 1) 0
      let t :=
        if i % 8 = 0 then subw (rotw prev) ^^^ ((powx.getD (i / 8 - 1) 0) <<< 24)
        else if i % 8 = 4 then subw prev
        else prev
      ws ++ [ws.getD (i - 8) 0 ^^^ t])
    ((List.range 8).map (fun i => beBytesToNat ((key.drop (4 * i)).take 4)))

/-- Multiplication by x in GF(2^8) (xtime). -/
def gmulx (b : Nat) : Nat :=
  ((b <<< 1) ^^^ (if Nat.testBit b 7 then 0x1B else 0)) &&& 0xFF

/-- The 16-byte AES state is kept in input order: byte `r + 4*c` is state
row `r`, column `c` (FIPS-197 layout, matching the Go column words). -/
def subBytesL (st : List Nat) : List Nat := st.map sboxAt

def shiftRowsL (st : List Nat) : List Nat :=
  List.ofFn (fun i : Fin 16 =>
    st.getD ((i.val % 4) + 4 * ((i.val / 4 + i.val % 4) % 4)) 0)

def mixColumnsL (st : List Nat) : List Nat :=
  List.ofFn (fun i : Fin 16 =>
    let c := i.val / 4
    let a0 := st.getD (4 * c) 0
    let a1 := st.getD (4 * c + 1) 0
    let a2 := st.getD (4 * c + 2) 0
    let a3 := st.getD (4 * c + 3) 0
    match i.val % 4 with
    | 0 => gmulx a0 ^^^ (gmulx a1 ^^^ a1) ^^^ a2 ^^^ a3
    | 1 => a0 ^^^ gmulx a1 ^^^ (gmulx a2 ^^^ a2) ^^^ a3
    | 2 => a0 ^^^ a1 ^^^ gmulx a2 ^^^ (gmulx a3 ^^^ a3)
    | _ => (gmulx a0 ^^^ a0) ^^^ a1 ^^^ a2 ^^^ gmulx a3)

def addRoundKeyL (ws : List Nat) (round : Nat) (st : List Nat) : List Nat :=
  List.ofFn (fun i : Fin 16 =>
    st.getD i.val 0 ^^^ ((ws.getD (4 * round + i.val / 4) 0) >>> (8 * (3 - i.val % 4)) &&& 0xFF))

/-- AES-256 block encryption: 14 rounds over the expanded key words. -/
def aesEncryptBlock (ws : List Nat) (input : List Nat) : List Nat :=
  addRoundKeyL ws 14 (shiftRowsL (subBytesL
    ((List.range 13).foldl
      (fun st r => addRoundKeyL ws (r + 1) (mixColumnsL (shiftRowsL (subBytesL st))))
      (addRoundKeyL ws 0 input))))

/-- CTR counter block `j`: the IV interpreted as a 128-bit big-endian
counter plus `j` (the Go stdlib increments the16-byte block big-endian
with wraparound). -/
def ctrCounterBlock (iv : List Nat) (j : Nat) : List Nat :=
  natToBEBytes 16 ((beBytesToNat iv + j) % 2 ^ 128)

/-- The CTR keystream: concatenated encryptions of successive counter
blocks, truncated to `n` bytes. -/
def ctrKeystream (key iv : List Nat) (n : Nat) : List Nat :=
  ((List.range ((n + 15) / 16)).flatMap
    (fun j => aesEncryptBlock (expandKeyWords key) (ctrCounterBlock iv j))).take n

/-- `XorA256CTR`: XOR the input with the AES-256-CTR keystream
(`XORKeyStream` writes `src[i] ^ ks[i]`). -/
def XorA256CTR (source key iv : List Nat) : List Nat :=
  List.zipWith Nat.xor source (ctrKeystream key iv source.length)

theorem length_addRoundKeyL (ws : List Nat) (round : Nat) (st : List Nat) :
    (addRoundKeyL ws round st).length = 16 := by
  rw [addRoundKeyL, List.length_ofFn]

theorem length_aesEncryptBlock (ws input : List Nat) :
    (aesEncryptBlock ws input).length = 16 :=
  length_addRoundKeyL ws 14 _

theorem length_flatMap_const {A B : Type} (l : List A) (f : A → List B) (c : Nat)
    (h : ∀ x ∈ l, (f x).length = c) : (l.flatMap f).length = c * l.length := by
  induction l with
  | nil => simp
  | cons a as ih =>
    rw [List.flatMap_cons, List.length_append, h a (by simp),
      ih (fun x hx => h x (by simp [hx])), List.length_cons]
    ring

theorem length_ctrKeystream (key iv : List Nat) (n : Nat) :
    (ctrKeystream key iv n).length = n := by
  rw [ctrKeystream, List.length_take,
    length_flatMap_const _ _ 16 (fun x _ => length_aesEncryptBlock _ _), List.length_range]
  have hdm := Nat.div_add_mod (n + 15) 16
  have hlt : (n + 15) % 16 < 16 := Nat.mod_lt _ (by norm_num)
  omega

theorem zipWith_xor_involution : ∀ (a ks : List Nat), ks.length = a.length →
    List.zipWith Nat.xor (List.zipWith Nat.xor a ks) ks = a := by
  intro a
  induction a with
  | nil => intro ks _; simp
  | cons x xs ih =>
    intro ks hks
    cases ks with
    | nil => simp at hks
    | cons k kt =>
      simp only [List.zipWith_cons_cons]
      rw [ih kt (by simpa using hks)]
      rw [show Nat.xor (Nat.xor x k) k = x from Nat.xor_cancel_right k x]

/-! ### Claim theorem: cipher involution -/

/-- C3: applying `XorA256CTR` twice with the same 32-byte key and 16-byte
IV returns the original message, and each application preserves the
length. -/
theorem xor_ctr_involution (m key iv : List Nat) (hkey : key.length = 32)
    (hiv : iv.length = 16) :
    XorA256CTR (XorA256CTR m key iv) key iv = m ∧
      (XorA256CTR m key iv).length = m.length := by
  have hlen : (XorA256CTR m key iv).length = m.length := by
    rw [XorA256CTR, List.length_zipWith, length_ctrKeystream, Nat.min_self]
  refine ⟨?_, hlen⟩
  show List.zipWith Nat.xor (XorA256CTR m key iv)
    (ctrKeystream key iv (XorA256CTR m key iv).length) = m
  rw [hlen, XorA256CTR]
  exact zipWith_xor_involution m _ (length_ctrKeystream key iv m.length)

/-- Witness for the C3 theorem at a concrete key, IV and message. -/
theorem xor_ctr_involution_witness :
    (List.replicate 32 1).length = 32 ∧ (List.replicate 16 2).length = 16 ∧
      XorA256CTR (XorA256CTR [222, 173, 190, 239] (List.replicate 32 1)
          (List.replicate 16 2)) (List.replicate 32 1) (List.replicate 16 2) =
        [222, 173, 190, 239] :=
  ⟨by decide, by decide,
    (xor_ctr_involution [222, 173, 190, 239] _ _ (by decide) (by decide)).1⟩

/-! ### SHA-256, HMAC-SHA256 and HKDF (`DeriveKeysSHA256`)

`crypto/sha256`, `crypto/hmac` and `x/crypto/hkdf` embedded from FIPS
180-4, RFC 2104 and RFC 5869. All 32-bit words are `Nat` values reduced
mod `2 ^ 32`. -/

def rotr32 (n w : Nat) : Nat := ((w >>> n) ||| (w <<< (32 - n))) &&& 0xFFFFFFFF

def sha256K : List Nat := [
  1116352408, 1899447441, 3049323471, 3921009573, 961987163, 1508970993, 2453635748, 2870763221,
  3624381080, 310598401, 607225278, 1426881987, 1925078388, 2162078206, 2614888103, 3248222580,
  3835390401, 4022224774, 264347078, 604807628, 770255983, 1249150122, 1555081692, 1996064986,
  2554220882, 2821834349, 2952996808, 3210313671, 3336571891, 3584528711, 113926993, 338241895,
  666307205, 773529912, 1294757372, 1396182291, 1695183700, 1986661051, 2177026350, 2456956037,
  2730485921, 2820302411, 3259730800, 3345764771, 3516065817, 3600352804, 4094571909, 275423344,
  430227734, 506948616, 659060556, 883997877, 958139571, 1322822218, 1537002063, 1747873779,
  1955562222, 2024104815, 2227730452, 2361852424, 2428436474, 2756734187, 3204031479, 3329325298
]

def sha256H0 : List Nat := [
  1779033703, 3144134277, 1013904242, 2773480762, 1359893119, 2600822924, 528734635, 1541459225
]

def sha256Ch (x y z : Nat) : Nat := (x &&& y) ^^^ ((x ^^^ 0xFFFFFFFF) &&& z)

def sha256Maj (x y z : Nat) : Nat := (x &&& y) ^^^ (x &&& z) ^^^ (y &&& z)

def sha256B0 (w : Nat) : Nat := rotr32 2 w ^^^ rotr32 13 w ^^^ rotr32 22 w

def sha256B1 (w : Nat) : Nat := rotr32 6 w ^^^ rotr32 11 w ^^^ rotr32 25 w

def sha256S0 (w : Nat) : Nat := rotr32 7 w ^^^ rotr32 18 w ^^^ (w >>> 3)

def sha256S1 (w : Nat) : Nat := rotr32 17 w ^^^ rotr32 19 w ^^^ (w >>> 10)

/-- Message schedule: 16 big-endian words of the block extended to 64. -/
def sha256Schedule (block : List Nat) : List Nat :=
  (List.range 48).foldl
    (fun w t =>
      w ++ [(sha256S1 (w.getD (t + 14) 0) + w.getD (t + 9) 0 +
        sha256S0 (w.getD (t + 1) 0) + w.getD t 0) % 2 ^ 32])
    ((List.range 16).map (fun i => beBytesToNat ((block.drop (4 * i)).take 4)))

/-- One compression round: the state is the 8-word list `[a,...,h]`. -/
def sha256Round (w : List Nat) (st : List Nat) (t : Nat) : List Nat :=
  let t1 := (st.getD 7 0 + sha256B1 (st.getD 4 0) +
    sha256Ch (st.getD 4 0) (st.getD 5 0) (st.getD 6 0) +
    sha256K.getD t 0 + w.getD t 0) % 2 ^ 32
  let t2 := (sha256B0 (st.getD 0 0) + sha256Maj (st.getD 0 0) (st.getD 1 0) (st.getD 2 0)) % 2 ^ 32
  [(t1 + t2) % 2 ^ 32, st.getD 0 0, st.getD 1 0, st.getD 2 0,
    (st.getD 3 0 + t1) % 2 ^ 32, st.getD 4 0, st.getD 5 0, st.getD 6 0]

def sha256Compress (st block : List Nat) : List Nat :=
  let f := (List.range 64).foldl (sha256Round (sha256Schedule block)) st
  List.ofFn (fun i : Fin 8 => (st.getD i.val 0 + f.getD i.val 0) % 2 ^ 32)

/-- Merkle-Damgard padding: `0x80`, zeros to 56 mod 64, 64-bit bit length. -/
def sha256Pad (msg : List Nat) : List Nat :=
  msg ++ 0x80 :: (List.replicate ((119 - msg.length % 64) % 64) 0 ++ natToBEBytes 8 (8 * msg.length))

/-- Cuts a byte list into consecutive chunks of `k + 1` bytes. -/
def chunksB (k : Nat) : List Nat → List (List Nat)
  | [] => []
  | a :: rest => ((a :: rest).take (k + 1)) :: chunksB k ((a :: rest).drop (k + 1))
termination_by l => l.length
decreasing_by simp [List.length_drop]; omega

def sha256 (msg : List Nat) : List Nat :=
  ((chunksB 63 (sha256Pad msg)).foldl sha256Compress sha256H0).flatMap (natToBEBytes 4)

/-- RFC 2104 HMAC with SHA-256 (block size 64). -/
def hmacSHA256 (key msg : List Nat) : List Nat :=
  let k0 := if 64 < key.length then sha256 key else key
  let kp := k0 ++ List.replicate (64 - k0.length) 0
  sha256 ((kp.map (fun b => b ^^^ 0x5C)) ++ sha256 ((kp.map (fun b => b ^^^ 0x36)) ++ msg))

theorem length_natToBEBytes (w n : Nat) : (natToBEBytes w n).length = w := by
  simp [natToBEBytes]

theorem length_sha256Compress (st block : List Nat) : (sha256Compress st block).length = 8 := by
  simp [sha256Compress]

theorem length_sha256 (msg : List Nat) : (sha256 msg).length = 32 := by
  rw [sha256]
  have hst : ∀ (bs : List (List Nat)) (st : List Nat), st.length = 8 →
      (bs.foldl sha256Compress st).length = 8 := by
    intro bs
    induction bs with
    | nil => intro st h; simpa using h
    | cons b bt ih =>
      intro st h
      rw [List.foldl_cons]
      exact ih _ (length_sha256Compress st b)
  rw [length_flatMap_const _ _ 4 (fun x _ => length_natToBEBytes 4 x),
    hst _ _ (by rw [sha256H0]; rfl)]

theorem length_hmacSHA256 (key msg : List Nat) : (hmacSHA256 key msg).length = 32 :=
  length_sha256 _

/-! #### HKDF expander state (the `hkdf` reader of `x/crypto/hkdf`) -/

structure HkdfState where
  prk : List Nat
  info : List Nat
  counter : Nat
  prev : List Nat
  buf : List Nat

/-- Generate the next block `T(i+1) = HMAC(prk, T(i) || info || i+1)` and
append it to the buffer. -/
def hkdfExpandBlock (st : HkdfState) : HkdfState :=
  let t := hmacSHA256 st.prk (st.prev ++ st.info ++ [(st.counter + 1) % 256])
  ⟨st.prk, st.info, st.counter + 1, t, st.buf ++ t⟩

/-- `hkdf.Read`: serve from the buffer, expanding blocks until enough
bytes exist. The fuel bounds the expansion loop (each block is nonempty,
so `n` blocks always suffice for an `n`-byte read). -/
def hkdfRead : Nat → HkdfState → Nat → List Nat × HkdfState
  | fuel, st, n =>
    if n ≤ st.buf.length then
      (st.buf.take n, ⟨st.prk, st.info, st.counter, st.prev, st.buf.drop n⟩)
    else
      match fuel with
      | 0 => (st.buf, ⟨st.prk, st.info, st.counter, st.prev, []⟩)
      | fuel + 1 => hkdfRead fuel (hkdfExpandBlock st) n

/-- `DeriveKeysSHA256`: PRK = HMAC(zero-salt, key), then two sequential
32-byte reads of the expander give the AES key and the HMAC key. -/
def DeriveKeysSHA256 (key name : List Nat) : List Nat × List Nat :=
  let prk := hmacSHA256 (List.replicate 32 0) key
  let r1 := hkdfRead 32 ⟨prk, name, 0, [], []⟩ 32
  let r2 := hkdfRead 32 r1.2 32
  (r1.1, r2.1)

/-- RFC 5869 chained blocks: `T(0) = empty`, `T(i+1) = HMAC(prk, T(i) ||
info || i+1)`. -/
def hkdfT (prk info : List Nat) : Nat → List Nat
  | 0 => []
  | i + 1 => hmacSHA256 prk (hkdfT prk info i ++ info ++ [(i + 1) % 256])

/-- The HKDF output stream: the first `len` bytes of `T(1) || T(2) || ...`. -/
def hkdfOkm (prk info : List Nat) (len : Nat) : List Nat :=
  ((List.range ((len + 31) / 32)).flatMap (fun i => hkdfT prk info (i + 1))).take len

/-- Modelled from the spec: extract-and-expand (HKDF-SHA256) with a fixed
all-zero 32-byte salt and the label as the info string; the first 32
bytes of the expanded stream are the cipher key and the next 32 bytes the
MAC key. -/
def deriveKeysSHA256Spec (key name : List Nat) : List Nat × List Nat :=
  let prk := hmacSHA256 (List.replicate 32 0) key
  let okm := hkdfOkm prk name 64
  (okm.take 32, (okm.drop 32).take 32)

theorem hkdfRead_buf_ge (fuel : Nat) (st : HkdfState) (n : Nat) (h : n ≤ st.buf.length) :
    hkdfRead fuel st n =
      (st.buf.take n, ⟨st.prk, st.info, st.counter, st.prev, st.buf.drop n⟩) := by
  cases fuel <;> simp [hkdfRead, h]

theorem hkdfRead_buf_lt (fuel : Nat) (st : HkdfState) (n : Nat) (h : ¬ n ≤ st.buf.length) :
    hkdfRead (fuel + 1) st n = hkdfRead fuel (hkdfExpandBlock st) n := by
  rw [hkdfRead]
  simp [h]

/-! ### Claim theorem: key derivation -/

/-- C6: `DeriveKeysSHA256` equals HKDF-SHA256 with an all-zero 32-byte
salt and the label as info, where the first 32 bytes of the expanded
stream are the AES key and the next 32 bytes the HMAC key. Determinism of
the pair for identical `(secret, label)` holds because the embedding is a
pure function of its arguments. -/
theorem derive_keys_is_hkdf (key name : List Nat) :
    DeriveKeysSHA256 key name = deriveKeysSHA256Spec key name := by
  set prk := hmacSHA256 (List.replicate 32 0) key with hprk
  set t1 := hmacSHA256 prk (name ++ [1]) with ht1
  set t2 := hmacSHA256 prk (t1 ++ name ++ [2]) with ht2
  have hT1len : t1.length = 32 := length_hmacSHA256 _ _
  have hT2len : t2.length = 32 := length_hmacSHA256 _ _
  have hexp1 : hkdfExpandBlock ⟨prk, name, 0, [], []⟩ = ⟨prk, name, 1, t1, t1⟩ := by
    simp [hkdfExpandBlock, ht1]
  have hexp2 : hkdfExpandBlock ⟨prk, name, 1, t1, []⟩ = ⟨prk, name, 2, t2, t2⟩ := by
    simp [hkdfExpandBlock, ht2]
  have h1 : hkdfRead 32 ⟨prk, name, 0, [], []⟩ 32 = (t1, ⟨prk, name, 1, t1, []⟩) := by
    rw [show (32 : Nat) = 31 + 1 from rfl, hkdfRead_buf_lt 31 _ 32 (by simp), hexp1,
      hkdfRead_buf_ge 31 _ 32 (by simp [hT1len])]
    simp [List.take_of_length_le (le_of_eq hT1len),
      List.drop_eq_nil_of_le (le_of_eq hT1len)]
  have h2 : hkdfRead 32 ⟨prk, name, 1, t1, []⟩ 32 = (t2, ⟨prk, name, 2, t2, []⟩) := by
    rw [show (32 : Nat) = 31 + 1 from rfl, hkdfRead_buf_lt 31 _ 32 (by simp), hexp2,
      hkdfRead_buf_ge 31 _ 32 (by simp [hT2len])]
    simp [List.take_of_length_le (le_of_eq hT2len),
      List.drop_eq_nil_of_le (le_of_eq hT2len)]
  have hlhs : DeriveKeysSHA256 key name = (t1, t2) := by
    rw [DeriveKeysSHA256]
    rw [← hprk, h1, h2]
  have hokm : hkdfOkm prk name 64 = t1 ++ t2 := by
    rw [hkdfOkm, (by decide : List.range ((64 + 31) / 32) = [0, 1])]
    simp only [List.flatMap_cons, List.flatMap_nil, List.append_nil, Nat.zero_add,
      Nat.reduceAdd]
    rw [show hkdfT prk name 2 = t2 from by
        simp only [hkdfT]
        norm_num
        rw [← ht1, ← List.append_assoc, ← ht2],
      show hkdfT prk name 1 = t1 from by simp [hkdfT, ht1]]
    exact List.take_of_length_le (by rw [List.length_append, hT1len, hT2len])
  rw [hlhs, deriveKeysSHA256Spec]
  rw [← hprk, hokm]
  rw [List.take_left' hT1len, List.drop_left' hT1len,
    List.take_of_length_le (le_of_eq hT2len)]

/-! ### SHA-512, HMAC-SHA512 and PBKDF2 (`PBKDF2SHA512`)

`crypto/sha512` and `x/crypto/pbkdf2` embedded from FIPS 180-4 and RFC
2898. All 64-bit words are `Nat` values reduced mod `2 ^ 64`. -/

def rotr64 (n w : Nat) : Nat := ((w >>> n) ||| (w <<< (64 - n))) &&& 0xFFFFFFFFFFFFFFFF

def sha512K : List Nat := [
  4794697086780616226, 8158064640168781261, 13096744586834688815, 16840607885511220156, 4131703408338449720,
  6480981068601479193, 10538285296894168987, 12329834152419229976, 15566598209576043074, 1334009975649890238,
  2608012711638119052, 6128411473006802146, 8268148722764581231, 9286055187155687089, 11230858885718282805,
  13951009754708518548, 16472876342353939154, 17275323862435702243, 1135362057144423861, 2597628984639134821,
  3308224258029322869, 5365058923640841347, 6679025012923562964, 8573033837759648693, 10970295158949994411,
  12119686244451234320, 12683024718118986047, 13788192230050041572, 14330467153632333762, 15395433587784984357,
  489312712824947311, 1452737877330783856, 2861767655752347644, 3322285676063803686, 5560940570517711597,
  5996557281743188959, 7280758554555802590, 8532644243296465576, 9350256976987008742, 10552545826968843579,
  11727347734174303076, 12113106623233404929, 14000437183269869457, 14369950271660146224, 15101387698204529176,
  15463397548674623760, 17586052441742319658, 1182934255886127544, 1847814050463011016, 2177327727835720531,
  2830643537854262169, 3796741975233480872, 4115178125766777443, 5681478168544905931, 6601373596472566643,
  7507060721942968483, 8399075790359081724, 8693463985226723168, 9568029438360202098, 10144078919501101548,
  10430055236837252648, 11840083180663258601, 13761210420658862357, 14299343276471374635, 14566680578165727644,
  15097957966210449927, 16922976911328602910, 17689382322260857208, 500013540394364858, 748580250866718886,
  1242879168328830382, 1977374033974150939, 2944078676154940804, 3659926193048069267, 4368137639120453308,
  4836135668995329356, 5532061633213252278, 6448918945643986474, 6902733635092675308, 7801388544844847127
]

def sha512H0 : List Nat := [
  7640891576956012808, 13503953896175478587, 4354685564936845355, 11912009170470909681, 5840696475078001361,
  11170449401992604703, 2270897969802886507, 6620516959819538809
]

def sha512Ch (x y z : Nat) : Nat := (x &&& y) ^^^ ((x ^^^ 0xFFFFFFFFFFFFFFFF) &&& z)

def sha512Maj (x y z : Nat) : Nat := (x &&& y) ^^^ (x &&& z) ^^^ (y &&& z)

def sha512B0 (w : Nat) : Nat := rotr64 28 w ^^^ rotr64 34 w ^^^ rotr64 39 w

def sha512B1 (w : Nat) : Nat := rotr64 14 w ^^^ rotr64 18 w ^^^ rotr64 41 w

def sha512S0 (w : Nat) : Nat := rotr64 1 w ^^^ rotr64 8 w ^^^ (w >>> 7)

def sha512S1 (w : Nat) : Nat := rotr64 19 w ^^^ rotr64 61 w ^^^ (w >>> 6)

def sha512Schedule (block : List Nat) : List Nat :=
  (List.range 64).foldl
    (fun w t =>
      w ++ [(sha512S1 (w.getD (t + 14) 0) + w.getD (t + 9) 0 +
        sha512S0 (w.getD (t + 1) 0) + w.getD t 0) % 2 ^ 64])
    ((List.range 16).map (fun i => beBytesToNat ((block.drop (8 * i)).take 8)))

def sha512Round (w : List Nat) (st : List Nat) (t : Nat) : List Nat :=
  let t1 := (st.getD 7 0 + sha512B1 (st.getD 4 0) +
    sha512Ch (st.getD 4 0) (st.getD 5 0) (st.getD 6 0) +
    sha512K.getD t 0 + w.getD t 0) % 2 ^ 64
  let t2 := (sha512B0 (st.getD 0 0) + sha512Maj (st.getD 0 0) (st.getD 1 0) (st.getD 2 0)) % 2 ^ 64
  [(t1 + t2) % 2 ^ 64, st.getD 0 0, st.getD 1 0, st.getD 2 0,
    (st.getD 3 0 + t1) % 2 ^ 64, st.getD 4 0, st.getD 5 0, st.getD 6 0]

def sha512Compress (st block : List Nat) : List Nat :=
  let f := (List.range 80).foldl (sha512Round (sha512Schedule block)) st
  List.ofFn (fun i : Fin 8 => (st.getD i.val 0 + f.getD i.val 0) % 2 ^ 64)

/-- Padding: `0x80`, zeros to 112 mod 128, 128-bit big-endian bit length. -/
def sha512Pad (msg : List Nat) : List Nat :=
  msg ++ 0x80 :: (List.replicate ((239 - msg.length % 128) % 128) 0 ++
    natToBEBytes 16 (8 * msg.length))

def sha512 (msg : List Nat) : List Nat :=
  ((chunksB 127 (sha512Pad msg)).foldl sha512Compress sha512H0).flatMap (natToBEBytes 8)

/-- RFC 2104 HMAC with SHA-512 (block size 128). -/
def hmacSHA512 (key msg : List Nat) : List Nat :=
  let k0 := if 128 < key.length then sha512 key else key
  let kp := k0 ++ List.replicate (128 - k0.length) 0
  sha512 ((kp.map (fun b => b ^^^ 0x5C)) ++ sha512 ((kp.map (fun b => b ^^^ 0x36)) ++ msg))

theorem length_sha512Compress (st block : List Nat) : (sha512Compress st block).length = 8 := by
  simp [sha512Compress]

theorem length_sha512 (msg : List Nat) : (sha512 msg).length = 64 := by
  rw [sha512]
  have hst : ∀ (bs : List (List Nat)) (st : List Nat), st.length = 8 →
      (bs.foldl sha512Compress st).length = 8 := by
    intro bs
    induction bs with
    | nil => intro st h; simpa using h
    | cons b bt ih =>
      intro st h
      rw [List.foldl_cons]
      exact ih _ (length_sha512Compress st b)
  rw [length_flatMap_const _ _ 8 (fun x _ => length_natToBEBytes 8 x),
    hst _ _ (by rw [sha512H0]; rfl)]

theorem length_hmacSHA512 (key msg : List Nat) : (hmacSHA512 key msg).length = 64 :=
  length_sha512 _

/-- The U-chain of one PBKDF2 block: `U(j+1) = PRF(password, U(j))`,
`T = U1 ^ U2 ^ ... ` (`n` remaining iterations, `t` the accumulator). -/
def pbkdf2Iter (password : List Nat) : List Nat → List Nat → Nat → List Nat
  | _, t, 0 => t
  | u, t, n + 1 =>
    let u2 := hmacSHA512 password u
    pbkdf2Iter password u2 (List.zipWith Nat.xor t u2) n

/-- Block `blockIdx` of PBKDF2: `U1 = PRF(password, salt || INT(blockIdx))`
then `iters - 1` further XOR-folded iterations. -/
def pbkdf2Block (password salt : List Nat) (iters blockIdx : Nat) : List Nat :=
  let u1 := hmacSHA512 password (salt ++ natToBEBytes 4 blockIdx)
  pbkdf2Iter password u1 u1 (iters - 1)

/-- `PBKDF2SHA512`: `pbkdf2.Key(password, salt, iters, keyLenBits/8,
sha512.New)` — ceil(keyLen/64) blocks concatenated, truncated to
`keyLenBits / 8` bytes. -/
def PBKDF2SHA512 (password salt : List Nat) (iters keyLenBits : Nat) : List Nat :=
  ((List.range ((keyLenBits / 8 + 63) / 64)).flatMap
    (fun b => pbkdf2Block password salt iters (b + 1))).take (keyLenBits / 8)

theorem length_pbkdf2Iter (password : List Nat) :
    ∀ (n : Nat) (u t : List Nat), t.length = 64 →
      (pbkdf2Iter password u t n).length = 64 := by
  intro n
  induction n with
  | zero => intro u t h; simpa [pbkdf2Iter] using h
  | succ n ih =>
    intro u t h
    rw [pbkdf2Iter]
    exact ih _ _ (by rw [List.length_zipWith, h, length_hmacSHA512]; rfl)

theorem length_pbkdf2Block (password salt : List Nat) (iters blockIdx : Nat) :
    (pbkdf2Block password salt iters blockIdx).length = 64 :=
  length_pbkdf2Iter password _ _ _ (length_hmacSHA512 _ _)

/-! ### Claim theorem: PBKDF2 output length -/

/-- C9: for every password, salt, iteration count and requested bit
length, `PBKDF2SHA512` returns exactly `keyLenBits / 8` bytes (integer
division, so an exact byte count whenever the bit count is a multiple of
eight). -/
theorem pbkdf2_output_length (password salt : List Nat) (iters keyLenBits : Nat) :
    (PBKDF2SHA512 password salt iters keyLenBits).length = keyLenBits / 8 := by
  rw [PBKDF2SHA512, List.length_take,
    length_flatMap_const _ _ 64 (fun x _ => length_pbkdf2Block password salt iters (x + 1)),
    List.length_range]
  have hdm := Nat.div_add_mod (keyLenBits / 8 + 63) 64
  have hlt : (keyLenBits / 8 + 63) % 64 < 64 := Nat.mod_lt _ (by norm_num)
  omega

end GoCrypto
